import Mathlib

/-!
Shallow embedding of the TTL/LRU cache (`CacheManager`) from the repository's
cache source file. Time instants and durations are modelled as `Int`
(nanoseconds); the Go map `map[string]*CacheValue` is modelled as an
association list with unique keys, whose order stands for the (unspecified)
iteration order of the Go map. Values (`interface{}`) are modelled as `Int`.
Each call to `time.Now()` inside one operation is modelled by the single
`now : Int` argument of that operation; sequences of operations carry strictly
increasing timestamps, mirroring the monotone real-time clock.
-/

namespace LMSCache

/-- Entry stored in the cache: `CacheValue` from the source. -/
structure CacheValue where
  value : Int
  ttl : Int
  lastAccess : Int
deriving DecidableEq

/-- `CacheStats`: hit/miss/eviction counters and the `Size` field. -/
structure CacheStats where
  hits : Nat
  misses : Nat
  evictions : Nat
  size : Nat
deriving DecidableEq

/-- `CacheManager`: the store (map modelled as an association list), capacity,
default TTL, cleanup tick and statistics. -/
structure CacheManager where
  cache : List (String × CacheValue)
  capacity : Int
  defaultTTL : Int
  cleanupTick : Int
  stats : CacheStats
deriving DecidableEq

/-- Go map read `v, ok := m[k]` (first association wins; keys are unique). -/
def lookup : List (String × CacheValue) → String → Option CacheValue
  | [], _ => none
  | kv :: tl, k => if kv.1 = k then some kv.2 else lookup tl k

/-- Go map `delete(m, k)`: removes the association with key `k`, if any. -/
def eraseKey : List (String × CacheValue) → String → List (String × CacheValue)
  | [], _ => []
  | kv :: tl, k => if kv.1 = k then tl else kv :: eraseKey tl k

/-- Go map write `m[k] = v`: overwrite in place if present, else add. -/
def setKey (l : List (String × CacheValue)) (k : String) (v : CacheValue) :
    List (String × CacheValue) :=
  if (lookup l k).isSome then
    l.map (fun kv => if kv.1 = k then (k, v) else kv)
  else l ++ [(k, v)]

/-- The keys of the association list, in iteration order. -/
def keys (l : List (String × CacheValue)) : List String := l.map Prod.fst

/-- `NewCacheManager(maxSize, defaultTTL, cleanupTick)`. -/
def NewCacheManager (maxSize defaultTTL cleanupTick : Int) : CacheManager :=
  { cache := []
    capacity := maxSize
    defaultTTL := defaultTTL
    cleanupTick := cleanupTick
    stats := ⟨0, 0, 0, 0⟩ }

/-- One iteration of the scan in `lru`: keep the entry with the strictly
smallest `lastAccess` seen so far (`v.LastAccess.Compare(oldestTime) == -1`). -/
def lruStep (acc : Int × String) (kv : String × CacheValue) : Int × String :=
  if kv.2.lastAccess < acc.1 then (kv.2.lastAccess, kv.1) else acc

/-- `CacheManager.lru`: scan all entries starting from `(time.Now(), "")`,
delete the selected key and increment `Evictions`. -/
def lru (now : Int) (cm : CacheManager) : CacheManager :=
  let scan := cm.cache.foldl lruStep (now, "")
  { cm with
    cache := eraseKey cm.cache scan.2
    stats := { cm.stats with evictions := cm.stats.evictions + 1 } }

/-- `CacheManager.Set(key, value)`: evict (LRU) when the key is new and the
store is full, then write the entry with the default TTL and `lastAccess = now`. -/
def Set (now : Int) (cm : CacheManager) (key : String) (value : Int) : CacheManager :=
  let cm1 :=
    if (lookup cm.cache key).isSome = false ∧ (cm.cache.length : Int) = cm.capacity then
      lru now cm
    else cm
  { cm1 with cache := setKey cm1.cache key ⟨value, cm1.defaultTTL, now⟩ }

/-- `CacheManager.SetWithTTL(key, value, ttl)`: as `Set` but with an explicit TTL. -/
def SetWithTTL (now : Int) (cm : CacheManager) (key : String) (value ttl : Int) :
    CacheManager :=
  let cm1 :=
    if (lookup cm.cache key).isSome = false ∧ (cm.cache.length : Int) = cm.capacity then
      lru now cm
    else cm
  { cm1 with cache := setKey cm1.cache key ⟨value, ttl, now⟩ }

/-- `CacheManager.Get(key)`: returns `(nil, false)` and counts a miss when the
key is absent or `now - lastAccess > ttl`; otherwise returns the value and
counts a hit. The entry itself is not modified. -/
def Get (now : Int) (cm : CacheManager) (key : String) :
    (Option Int × Bool) × CacheManager :=
  match lookup cm.cache key with
  | none =>
      ((none, false), { cm with stats := { cm.stats with misses := cm.stats.misses + 1 } })
  | some v =>
      if now - v.lastAccess > v.ttl then
        ((none, false), { cm with stats := { cm.stats with misses := cm.stats.misses + 1 } })
      else
        ((some v.value, true), { cm with stats := { cm.stats with hits := cm.stats.hits + 1 } })

/-- `CacheManager.Delete(key)`: remove the entry when present, else no-op. -/
def Delete (cm : CacheManager) (key : String) : CacheManager :=
  if (lookup cm.cache key).isSome then { cm with cache := eraseKey cm.cache key } else cm

/-- `CacheManager.Clear()`: replace the map with a fresh empty one. -/
def Clear (cm : CacheManager) : CacheManager :=
  { cm with cache := [] }

/-- One iteration of the sweep in `ClearByTTL`: when the entry under scrutiny
is expired, increment `Evictions` and call `Delete` on its key. -/
def clearStep (now : Int) (acc : CacheManager) (kv : String × CacheValue) : CacheManager :=
  if now - kv.2.lastAccess > kv.2.ttl then
    Delete { acc with stats := { acc.stats with evictions := acc.stats.evictions + 1 } } kv.1
  else acc

/-- `CacheManager.ClearByTTL()`: iterate over all entries (a snapshot of the
map at entry, since only the current key is ever deleted) and sweep the
expired ones. -/
def ClearByTTL (now : Int) (cm : CacheManager) : CacheManager :=
  cm.cache.foldl (clearStep now) cm

/-- `CacheManager.GetStats()`: stores the constant `1` into `Stats.Size`
(`atomic.StoreInt64(&cm.Stats.Size, 1)`) and returns the stats. -/
def GetStats (cm : CacheManager) : CacheStats × CacheManager :=
  let cm1 := { cm with stats := { cm.stats with size := 1 } }
  (cm1.stats, cm1)

/-- The public operations of the store, used to state invariants over
arbitrary call sequences. -/
inductive CacheOp where
  | set (key : String) (value : Int)
  | setWithTTL (key : String) (value ttl : Int)
  | get (key : String)
  | delete (key : String)
  | clear
  | clearByTTL
  | getStats
deriving DecidableEq

/-- Apply one operation at time `now`. -/
def applyOp (now : Int) (cm : CacheManager) : CacheOp → CacheManager
  | .set k v => Set now cm k v
  | .setWithTTL k v t => SetWithTTL now cm k v t
  | .get k => (Get now cm k).2
  | .delete k => Delete cm k
  | .clear => Clear cm
  | .clearByTTL => ClearByTTL now cm
  | .getStats => (GetStats cm).2

/-- Run a timestamped sequence of operations. -/
def run (ops : List (Int × CacheOp)) (cm : CacheManager) : CacheManager :=
  ops.foldl (fun acc p => applyOp p.1 acc p.2) cm

/-- Every entry was stamped no later than `t`. -/
def TimesLE (t : Int) (cm : CacheManager) : Prop :=
  ∀ kv ∈ cm.cache, kv.2.lastAccess ≤ t

/-- The store invariant at clock `t`: unique keys, positive capacity, at most
`capacity` entries, all stamped no later than `t`. -/
def Inv (t : Int) (cm : CacheManager) : Prop :=
  (keys cm.cache).Nodup ∧ 0 < cm.capacity ∧
    (cm.cache.length : Int) ≤ cm.capacity ∧ TimesLE t cm

/-- The keys written by the `set` operations of a sequence, in order. -/
def setKeysOf (ops : List (Int × CacheOp)) : List String :=
  ops.filterMap (fun p => match p.2 with | .set k _ => some k | _ => none)

/-- The sequence consists of `Set` calls only. -/
def SetsOnly (ops : List (Int × CacheOp)) : Prop :=
  ∀ p ∈ ops, ∃ k v, p.2 = CacheOp.set k v

/-- A store of capacity 10 holding one entry `"k" ↦ 7` written at time 0. -/
def c1Store : CacheManager := Set 0 (NewCacheManager 10 100 1) "k" 7

/-- A store of capacity 2 filled with `"a"` (time 1) and `"b"` (time 2). -/
def c4Store : CacheManager := Set 2 (Set 1 (NewCacheManager 2 100 1) "a" 1) "b" 2

/-- A store holding `"k" ↦ 7` written at time 0 with a TTL of 3. -/
def c5Store : CacheManager := SetWithTTL 0 (NewCacheManager 10 100 1) "k" 7 3

/-- A store of capacity 10 holding two entries. -/
def c6Store : CacheManager := Set 2 (Set 1 (NewCacheManager 10 100 1) "a" 1) "b" 2

/-- A store holding `"a"` (time 1, TTL 2, expired at time 10) and `"b"`
(time 9, TTL 50, alive at time 10). -/
def c7Store : CacheManager :=
  SetWithTTL 9 (SetWithTTL 1 (NewCacheManager 5 100 1) "a" 1 2) "b" 2 50

/-- A store of capacity 2 filled at times 1 and 2, used for the C3 witness. -/
def c3Store : CacheManager := Set 2 (Set 1 (NewCacheManager 2 100 1) "a" 1) "b" 2

instance (t : Int) (cm : CacheManager) : Decidable (TimesLE t cm) := by
  unfold TimesLE; exact List.decidableBAll _ _

instance (t : Int) (cm : CacheManager) : Decidable (Inv t cm) := by
  unfold Inv; infer_instance

/-! ### Lemmas about the association-list map operations -/

@[simp] lemma keys_nil : keys [] = [] := rfl

@[simp] lemma keys_cons (kv : String × CacheValue) (tl : List (String × CacheValue)) :
    keys (kv :: tl) = kv.1 :: keys tl := rfl

@[simp] lemma keys_append (l1 l2 : List (String × CacheValue)) :
    keys (l1 ++ l2) = keys l1 ++ keys l2 := by
  simp [keys]

@[simp] lemma lookup_nil (k : String) : lookup [] k = none := rfl

lemma lookup_cons (kv : String × CacheValue) (tl : List (String × CacheValue)) (k : String) :
    lookup (kv :: tl) k = if kv.1 = k then some kv.2 else lookup tl k := rfl

lemma eraseKey_cons (kv : String × CacheValue) (tl : List (String × CacheValue)) (k : String) :
    eraseKey (kv :: tl) k = if kv.1 = k then tl else kv :: eraseKey tl k := rfl

lemma lookup_eq_none_iff (l : List (String × CacheValue)) (k : String) :
    lookup l k = none ↔ k ∉ keys l := by
  induction l with
  | nil => simp
  | cons kv tl ih =>
      rw [lookup_cons, keys_cons]
      by_cases h : kv.1 = k
      · simp [h]
      · rw [if_neg h, ih]
        constructor
        · intro hn hc
          rcases List.mem_cons.mp hc with hc | hc
          · exact h hc.symm
          · exact hn hc
        · intro hn hc
          exact hn (List.mem_cons_of_mem _ hc)

lemma lookup_isSome_iff (l : List (String × CacheValue)) (k : String) :
    (lookup l k).isSome = true ↔ k ∈ keys l := by
  cases h : lookup l k with
  | none =>
      simp [(lookup_eq_none_iff l k).mp h]
  | some v =>
      simp only [Option.isSome_some, true_iff]
      by_contra hk
      rw [← lookup_eq_none_iff, h] at hk
      exact Option.noConfusion hk

lemma eraseKey_of_not_mem (l : List (String × CacheValue)) (k : String)
    (h : k ∉ keys l) : eraseKey l k = l := by
  induction l with
  | nil => rfl
  | cons kv tl ih =>
      rw [keys_cons] at h
      have h1 : ¬kv.1 = k := fun he => h (by rw [← he]; exact List.mem_cons_self _ _)
      rw [eraseKey_cons, if_neg h1, ih (fun hm => h (List.mem_cons_of_mem _ hm))]

lemma keys_eraseKey (l : List (String × CacheValue)) (k : String) :
    keys (eraseKey l k) = (keys l).erase k := by
  induction l with
  | nil => rfl
  | cons kv tl ih =>
      by_cases h : kv.1 = k
      · rw [eraseKey_cons, if_pos h, keys_cons, h, List.erase_cons_head]
      · rw [eraseKey_cons, if_neg h, keys_cons, keys_cons, ih,
          List.erase_cons_tail (by simpa using h)]

lemma eraseKey_sublist (l : List (String × CacheValue)) (k : String) :
    List.Sublist (eraseKey l k) l := by
  induction l with
  | nil => exact List.Sublist.refl []
  | cons kv tl ih =>
      by_cases h : kv.1 = k
      · rw [eraseKey_cons, if_pos h]
        exact List.sublist_cons_self kv tl
      · rw [eraseKey_cons, if_neg h]
        exact ih.cons₂ kv

lemma length_eraseKey_of_mem (l : List (String × CacheValue)) (k : String)
    (h : k ∈ keys l) : (eraseKey l k).length + 1 = l.length := by
  induction l with
  | nil => simp at h
  | cons kv tl ih =>
      by_cases hk : kv.1 = k
      · rw [eraseKey_cons, if_pos hk]
        rfl
      · rw [keys_cons] at h
        rcases List.mem_cons.mp h with h1 | h1
        · exact absurd h1.symm hk
        · rw [eraseKey_cons, if_neg hk]
          simp only [List.length_cons]
          rw [← ih h1]

lemma eraseKey_append_of_not_mem (F l : List (String × CacheValue)) (k : String)
    (h : k ∉ keys F) : eraseKey (F ++ l) k = F ++ eraseKey l k := by
  induction F with
  | nil => rfl
  | cons kv tl ih =>
      rw [keys_cons] at h
      have h1 : ¬kv.1 = k := fun he => by rw [he] at h; exact h (List.mem_cons_self k (keys tl))
      rw [List.cons_append, eraseKey_cons, if_neg h1,
        ih (fun hm => h (List.mem_cons_of_mem _ hm)), List.cons_append]

lemma keys_map_setFn (l : List (String × CacheValue)) (k : String) (v : CacheValue) :
    keys (l.map (fun kv => if kv.1 = k then (k, v) else kv)) = keys l := by
  induction l with
  | nil => rfl
  | cons kv tl ih =>
      by_cases h : kv.1 = k
      · simp only [List.map_cons, if_pos h, keys_cons, ih]
        rw [h]
      · simp only [List.map_cons, if_neg h, keys_cons, ih]

lemma keys_setKey_of_isSome (l : List (String × CacheValue)) (k : String) (v : CacheValue)
    (h : (lookup l k).isSome = true) : keys (setKey l k v) = keys l := by
  unfold setKey
  rw [if_pos h]
  exact keys_map_setFn l k v

lemma keys_setKey_of_none (l : List (String × CacheValue)) (k : String) (v : CacheValue)
    (h : lookup l k = none) : keys (setKey l k v) = keys l ++ [k] := by
  unfold setKey
  rw [if_neg (by simp [h])]
  simp

lemma length_setKey_of_isSome (l : List (String × CacheValue)) (k : String) (v : CacheValue)
    (h : (lookup l k).isSome = true) : (setKey l k v).length = l.length := by
  have := keys_setKey_of_isSome l k v h
  have h1 : (keys (setKey l k v)).length = (keys l).length := by rw [this]
  simpa [keys] using h1

lemma length_setKey_of_none (l : List (String × CacheValue)) (k : String) (v : CacheValue)
    (h : lookup l k = none) : (setKey l k v).length = l.length + 1 := by
  have := keys_setKey_of_none l k v h
  have h1 : (keys (setKey l k v)).length = (keys l ++ [k]).length := by rw [this]
  simpa [keys] using h1

lemma mem_setKey_imp (l : List (String × CacheValue)) (k : String) (v : CacheValue)
    (P : CacheValue → Prop) (hl : ∀ kv ∈ l, P kv.2) (hv : P v) :
    ∀ kv ∈ setKey l k v, P kv.2 := by
  intro kv hkv
  unfold setKey at hkv
  by_cases h : (lookup l k).isSome = true
  · rw [if_pos h] at hkv
    rcases List.mem_map.mp hkv with ⟨a, ha, hak⟩
    by_cases hak1 : a.1 = k
    · simp [hak1] at hak
      rw [← hak]
      exact hv
    · simp [hak1] at hak
      rw [← hak]
      exact hl a ha
  · rw [if_neg h] at hkv
    rcases List.mem_append.mp hkv with h1 | h1
    · exact hl kv h1
    · simp at h1
      rw [h1]
      exact hv

lemma mem_of_mem_eraseKey (l : List (String × CacheValue)) (k : String) :
    ∀ kv ∈ eraseKey l k, kv ∈ l :=
  fun kv hkv => (eraseKey_sublist l k).mem hkv

/-! ### The LRU scan -/

lemma lruStep_fst_le_left (init : Int × String) (kv : String × CacheValue) :
    (lruStep init kv).1 ≤ init.1 := by
  unfold lruStep
  by_cases hc : kv.2.lastAccess < init.1 <;> simp [hc] <;> omega

lemma lruStep_fst_le_self (init : Int × String) (kv : String × CacheValue) :
    (lruStep init kv).1 ≤ kv.2.lastAccess := by
  unfold lruStep
  by_cases hc : kv.2.lastAccess < init.1 <;> simp [hc] <;> omega

lemma lruScan_fst_le (l : List (String × CacheValue)) :
    ∀ init : Int × String, (l.foldl lruStep init).1 ≤ init.1 ∧
      ∀ kv ∈ l, (l.foldl lruStep init).1 ≤ kv.2.lastAccess := by
  induction l with
  | nil =>
      intro init
      exact ⟨le_refl _, by simp⟩
  | cons kv tl ih =>
      intro init
      rw [List.foldl_cons]
      rcases ih (lruStep init kv) with ⟨h1, h2⟩
      refine ⟨le_trans h1 (lruStep_fst_le_left init kv), ?_⟩
      intro kv' hkv'
      rcases List.mem_cons.mp hkv' with h | h
      · rw [h]
        exact le_trans h1 (lruStep_fst_le_self init kv)
      · exact h2 kv' h

lemma lruScan_origin (l : List (String × CacheValue)) :
    ∀ init : Int × String, l.foldl lruStep init = init ∨
      ∃ kv ∈ l, l.foldl lruStep init = (kv.2.lastAccess, kv.1) := by
  induction l with
  | nil =>
      intro init
      exact Or.inl rfl
  | cons kv tl ih =>
      intro init
      rw [List.foldl_cons]
      rcases ih (lruStep init kv) with h | ⟨kv', hmem, heq⟩
      · rw [h]
        by_cases hc : kv.2.lastAccess < init.1
        · exact Or.inr ⟨kv, List.mem_cons_self _ _, by simp [lruStep, hc]⟩
        · exact Or.inl (by simp [lruStep, hc])
      · exact Or.inr ⟨kv', List.mem_cons_of_mem _ hmem, heq⟩

/-- When the store is nonempty and all entries are stamped strictly before
`now`, `lru` removes exactly one entry, one of minimal `lastAccess`, and
increments `Evictions` while leaving everything else alone. -/
lemma lru_selects (cm : CacheManager) (now : Int)
    (hne : cm.cache ≠ [])
    (hlt : ∀ kv ∈ cm.cache, kv.2.lastAccess < now) :
    ∃ kv ∈ cm.cache,
      (∀ kv' ∈ cm.cache, kv.2.lastAccess ≤ kv'.2.lastAccess) ∧
      (lru now cm).cache = eraseKey cm.cache kv.1 ∧
      (lru now cm).stats.evictions = cm.stats.evictions + 1 ∧
      (lru now cm).stats.hits = cm.stats.hits ∧
      (lru now cm).stats.misses = cm.stats.misses ∧
      (lru now cm).capacity = cm.capacity ∧
      (lru now cm).defaultTTL = cm.defaultTTL := by
  obtain ⟨kv0, tl0, hl⟩ := List.exists_cons_of_ne_nil hne
  rcases lruScan_origin cm.cache (now, "") with h | ⟨kv, hmem, heq⟩
  · exfalso
    have hm0 : kv0 ∈ cm.cache := by
      rw [hl]
      exact List.mem_cons_self _ _
    have h2 := (lruScan_fst_le cm.cache (now, "")).2 kv0 hm0
    rw [h] at h2
    have h3 := hlt kv0 hm0
    omega
  · refine ⟨kv, hmem, ?_, ?_, rfl, rfl, rfl, rfl, rfl⟩
    · intro kv' h'
      have h2 := (lruScan_fst_le cm.cache (now, "")).2 kv' h'
      rw [heq] at h2
      exact h2
    · show eraseKey cm.cache (cm.cache.foldl lruStep (now, "")).2 = eraseKey cm.cache kv.1
      rw [heq]

/-! ### Case analysis of `Set` and `SetWithTTL` -/

lemma SetWithTTL_present (now : Int) (cm : CacheManager) (k : String) (v t : Int)
    (h : (lookup cm.cache k).isSome = true) :
    SetWithTTL now cm k v t = { cm with cache := setKey cm.cache k ⟨v, t, now⟩ } := by
  unfold SetWithTTL
  rw [if_neg (by simp [h])]

lemma SetWithTTL_notfull (now : Int) (cm : CacheManager) (k : String) (v t : Int)
    (h : ¬((cm.cache.length : Int) = cm.capacity)) :
    SetWithTTL now cm k v t = { cm with cache := setKey cm.cache k ⟨v, t, now⟩ } := by
  unfold SetWithTTL
  rw [if_neg (by simp [h])]

lemma SetWithTTL_full (now : Int) (cm : CacheManager) (k : String) (v t : Int)
    (h1 : lookup cm.cache k = none) (h2 : (cm.cache.length : Int) = cm.capacity) :
    SetWithTTL now cm k v t =
      { lru now cm with cache := setKey (lru now cm).cache k ⟨v, t, now⟩ } := by
  unfold SetWithTTL
  rw [if_pos ⟨by simp [h1], h2⟩]

lemma Set_eq_SetWithTTL (now : Int) (cm : CacheManager) (k : String) (v : Int) :
    Set now cm k v = SetWithTTL now cm k v cm.defaultTTL := by
  unfold Set SetWithTTL
  by_cases hc : ((lookup cm.cache k).isSome = false ∧ (cm.cache.length : Int) = cm.capacity)
  · rw [if_pos hc]
    rfl
  · rw [if_neg hc]

/-! ### Preservation of the store invariant -/

lemma TimesLE_mono {t t' : Int} {cm : CacheManager} (h : TimesLE t cm) (htt : t ≤ t') :
    TimesLE t' cm :=
  fun kv hkv => le_trans (h kv hkv) htt

lemma mem_keys_of_mem {l : List (String × CacheValue)} {kv : String × CacheValue}
    (h : kv ∈ l) : kv.1 ∈ keys l :=
  List.mem_map_of_mem Prod.fst h

lemma Delete_stats (cm : CacheManager) (k : String) : (Delete cm k).stats = cm.stats := by
  unfold Delete
  split <;> rfl

lemma Delete_capacity (cm : CacheManager) (k : String) :
    (Delete cm k).capacity = cm.capacity := by
  unfold Delete
  split <;> rfl

lemma Delete_defaultTTL (cm : CacheManager) (k : String) :
    (Delete cm k).defaultTTL = cm.defaultTTL := by
  unfold Delete
  split <;> rfl

lemma Delete_cache_sublist (cm : CacheManager) (k : String) :
    List.Sublist (Delete cm k).cache cm.cache := by
  unfold Delete
  split
  · exact eraseKey_sublist cm.cache k
  · exact List.Sublist.refl _

/-! ### The TTL sweep -/

/-- The expiry test of the sweep and of `Get`: `now - lastAccess > ttl`. -/
def isExpired (now : Int) (kv : String × CacheValue) : Bool :=
  decide (kv.2.ttl < now - kv.2.lastAccess)

lemma clearByTTL_go (now : Int) :
    ∀ (rest F : List (String × CacheValue)) (acc : CacheManager),
      acc.cache = F ++ rest →
      (keys (F ++ rest)).Nodup →
      (rest.foldl (clearStep now) acc).cache
          = F ++ rest.filter (fun kv => !isExpired now kv) ∧
      (rest.foldl (clearStep now) acc).stats.evictions
          = acc.stats.evictions + rest.countP (isExpired now) ∧
      (rest.foldl (clearStep now) acc).stats.hits = acc.stats.hits ∧
      (rest.foldl (clearStep now) acc).stats.misses = acc.stats.misses ∧
      (rest.foldl (clearStep now) acc).capacity = acc.capacity ∧
      (rest.foldl (clearStep now) acc).defaultTTL = acc.defaultTTL := by
  intro rest
  induction rest with
  | nil =>
      intro F acc hcache _
      refine ⟨by simpa using hcache, by simp, rfl, rfl, rfl, rfl⟩
  | cons kv tl ih =>
      intro F acc hcache hnd
      rw [List.foldl_cons]
      by_cases he : kv.2.ttl < now - kv.2.lastAccess
      · -- the entry is expired: it is counted and deleted
        have hstep : clearStep now acc kv =
            Delete { acc with stats := { acc.stats with evictions := acc.stats.evictions + 1 } }
              kv.1 := by
          unfold clearStep
          rw [if_pos (by omega)]
        have hk_mem : kv.1 ∈ keys (F ++ kv :: tl) := by
          rw [keys_append, keys_cons]
          exact List.mem_append_right _ (List.mem_cons_self _ _)
        have hk_notF : kv.1 ∉ keys F := by
          intro hinF
          rw [keys_append, keys_cons, List.nodup_append] at hnd
          exact hnd.2.2 hinF (List.mem_cons_self _ _)
        have hsome : (lookup acc.cache kv.1).isSome = true := by
          rw [lookup_isSome_iff, hcache]
          exact hk_mem
        have hdel : clearStep now acc kv =
            { acc with
              cache := F ++ tl
              stats := { acc.stats with evictions := acc.stats.evictions + 1 } } := by
          rw [hstep]
          unfold Delete
          rw [if_pos (by simpa using hsome)]
          have : eraseKey acc.cache kv.1 = F ++ tl := by
            rw [hcache, eraseKey_append_of_not_mem _ _ _ hk_notF, eraseKey_cons, if_pos rfl]
          rw [this]
        have hnd' : (keys (F ++ tl)).Nodup := by
          rw [keys_append] at hnd ⊢
          rw [keys_cons] at hnd
          have hsub : List.Sublist (keys F ++ keys tl) (keys F ++ kv.1 :: keys tl) :=
            List.Sublist.append (List.Sublist.refl _) (List.sublist_cons_self _ _)
          exact hnd.sublist hsub
        rcases ih F (clearStep now acc kv) (by rw [hdel]) hnd' with
          ⟨h1, h2, h3, h4, h5, h6⟩
        have hev : (clearStep now acc kv).stats.evictions = acc.stats.evictions + 1 := by
          rw [hdel]
        have hh : (clearStep now acc kv).stats.hits = acc.stats.hits := by rw [hdel]
        have hm : (clearStep now acc kv).stats.misses = acc.stats.misses := by rw [hdel]
        have hcap : (clearStep now acc kv).capacity = acc.capacity := by rw [hdel]
        have httl : (clearStep now acc kv).defaultTTL = acc.defaultTTL := by rw [hdel]
        refine ⟨?_, ?_, ?_, ?_, ?_, ?_⟩
        · rw [h1, List.filter_cons_of_neg (by simp [isExpired, he])]
        · rw [h2, hev, List.countP_cons_of_pos _ _ (by simp [isExpired, he])]
          omega
        · rw [h3, hh]
        · rw [h4, hm]
        · rw [h5, hcap]
        · rw [h6, httl]
      · -- the entry survives: the accumulator is untouched
        have hstep : clearStep now acc kv = acc := by
          unfold clearStep
          rw [if_neg (by omega)]
        have hcache' : acc.cache = (F ++ [kv]) ++ tl := by
          rw [hcache, List.append_assoc, List.singleton_append]
        have hnd2 : (keys ((F ++ [kv]) ++ tl)).Nodup := by
          rw [List.append_assoc, List.singleton_append]
          exact hnd
        rcases ih (F ++ [kv]) acc hcache' hnd2 with ⟨h1, h2, h3, h4, h5, h6⟩
        rw [hstep]
        refine ⟨?_, ?_, h3, h4, h5, h6⟩
        · rw [h1, List.filter_cons_of_pos (by simp [isExpired, he]), List.append_assoc,
            List.singleton_append]
        · rw [h2, List.countP_cons_of_neg _ _ (by simp [isExpired, he])]

/-- Characterization of `ClearByTTL` on a store with unique keys: it keeps
exactly the unexpired entries and bumps `Evictions` once per expired entry. -/
lemma ClearByTTL_spec_aux (now : Int) (cm : CacheManager)
    (hnd : (keys cm.cache).Nodup) :
    (ClearByTTL now cm).cache = cm.cache.filter (fun kv => !isExpired now kv) ∧
    (ClearByTTL now cm).stats.evictions
        = cm.stats.evictions + cm.cache.countP (isExpired now) ∧
    (ClearByTTL now cm).stats.hits = cm.stats.hits ∧
    (ClearByTTL now cm).stats.misses = cm.stats.misses ∧
    (ClearByTTL now cm).capacity = cm.capacity ∧
    (ClearByTTL now cm).defaultTTL = cm.defaultTTL := by
  have h := clearByTTL_go now cm.cache [] cm rfl (by simpa using hnd)
  simpa [ClearByTTL] using h

/-! ### Behaviour of `Get` on the store -/

lemma Get_preserves (now : Int) (cm : CacheManager) (k : String) :
    (Get now cm k).2.cache = cm.cache ∧
    (Get now cm k).2.capacity = cm.capacity ∧
    (Get now cm k).2.defaultTTL = cm.defaultTTL ∧
    (Get now cm k).2.stats.evictions = cm.stats.evictions := by
  unfold Get
  split
  · exact ⟨rfl, rfl, rfl, rfl⟩
  · split
    · exact ⟨rfl, rfl, rfl, rfl⟩
    · exact ⟨rfl, rfl, rfl, rfl⟩

/-! ### Invariant preservation -/

lemma Inv_of_sublist {t now : Int} {cm cm' : CacheManager}
    (hc : List.Sublist cm'.cache cm.cache) (hcap : cm'.capacity = cm.capacity)
    (hinv : Inv t cm) (ht : t ≤ now) : Inv now cm' := by
  obtain ⟨h1, h2, h3, h4⟩ := hinv
  refine ⟨?_, ?_, ?_, ?_⟩
  · exact h1.sublist (hc.map Prod.fst)
  · rw [hcap]
    exact h2
  · rw [hcap]
    have := hc.length_le
    omega
  · intro kv hkv
    exact TimesLE_mono h4 ht kv (hc.mem hkv)

/-- On a full store with strictly older entries, inserting an absent key first
evicts one entry of minimal `lastAccess`, then appends the fresh entry: full
characterization of the full-insert path of `SetWithTTL`. -/
lemma SetWithTTL_full_spec (t now : Int) (cm : CacheManager) (k : String) (v tt : Int)
    (htle : TimesLE t cm) (ht : t < now)
    (hnone : lookup cm.cache k = none) (hfull : (cm.cache.length : Int) = cm.capacity)
    (hpos : 0 < cm.capacity) :
    ∃ kv ∈ cm.cache,
      (∀ kv' ∈ cm.cache, kv.2.lastAccess ≤ kv'.2.lastAccess) ∧
      (SetWithTTL now cm k v tt).cache = setKey (eraseKey cm.cache kv.1) k ⟨v, tt, now⟩ ∧
      keys (SetWithTTL now cm k v tt).cache = ((keys cm.cache).erase kv.1) ++ [k] ∧
      (SetWithTTL now cm k v tt).cache.length = cm.cache.length ∧
      (SetWithTTL now cm k v tt).stats.evictions = cm.stats.evictions + 1 ∧
      (SetWithTTL now cm k v tt).stats.hits = cm.stats.hits ∧
      (SetWithTTL now cm k v tt).stats.misses = cm.stats.misses := by
  have hlenpos : 0 < cm.cache.length := by omega
  have hne : cm.cache ≠ [] := List.length_pos.mp hlenpos
  have hlt : ∀ kv ∈ cm.cache, kv.2.lastAccess < now :=
    fun kv h => lt_of_le_of_lt (htle kv h) ht
  obtain ⟨kv, hmem, hmin, hcache, hev, hh, hm, _, _⟩ := lru_selects cm now hne hlt
  have hrw := SetWithTTL_full now cm k v tt hnone hfull
  have hknot : k ∉ keys cm.cache := (lookup_eq_none_iff _ _).mp hnone
  have hknot' : k ∉ keys (eraseKey cm.cache kv.1) := by
    rw [keys_eraseKey]
    intro hc
    exact hknot (List.mem_of_mem_erase hc)
  have hnone' : lookup (eraseKey cm.cache kv.1) k = none :=
    (lookup_eq_none_iff _ _).mpr hknot'
  refine ⟨kv, hmem, hmin, ?_, ?_, ?_, ?_, ?_, ?_⟩
  · rw [hrw]
    show setKey (lru now cm).cache k ⟨v, tt, now⟩ = _
    rw [hcache]
  · rw [hrw]
    show keys (setKey (lru now cm).cache k ⟨v, tt, now⟩) = _
    rw [hcache, keys_setKey_of_none _ _ _ hnone', keys_eraseKey]
  · rw [hrw]
    show (setKey (lru now cm).cache k ⟨v, tt, now⟩).length = _
    rw [hcache, length_setKey_of_none _ _ _ hnone']
    have := length_eraseKey_of_mem cm.cache kv.1 (mem_keys_of_mem hmem)
    omega
  · rw [hrw]
    show (lru now cm).stats.evictions = _
    rw [hev]
  · rw [hrw]
    show (lru now cm).stats.hits = _
    rw [hh]
  · rw [hrw]
    show (lru now cm).stats.misses = _
    rw [hm]

lemma SetWithTTL_capacity (now : Int) (cm : CacheManager) (k : String) (v tt : Int) :
    (SetWithTTL now cm k v tt).capacity = cm.capacity := by
  unfold SetWithTTL
  by_cases hc : ((lookup cm.cache k).isSome = false ∧ (cm.cache.length : Int) = cm.capacity)
  · rw [if_pos hc]
    rfl
  · rw [if_neg hc]

lemma SetWithTTL_defaultTTL (now : Int) (cm : CacheManager) (k : String) (v tt : Int) :
    (SetWithTTL now cm k v tt).defaultTTL = cm.defaultTTL := by
  unfold SetWithTTL
  by_cases hc : ((lookup cm.cache k).isSome = false ∧ (cm.cache.length : Int) = cm.capacity)
  · rw [if_pos hc]
    rfl
  · rw [if_neg hc]

lemma Inv_SetWithTTL (t now : Int) (cm : CacheManager) (k : String) (v tt : Int)
    (hinv : Inv t cm) (ht : t < now) : Inv now (SetWithTTL now cm k v tt) := by
  obtain ⟨hnd, hpos, hlen, htle⟩ := hinv
  have hP : ∀ kv ∈ cm.cache, (fun cv => cv.lastAccess ≤ now) kv.2 :=
    fun kv h => le_trans (htle kv h) (le_of_lt ht)
  cases hs : lookup cm.cache k with
  | some v0 =>
      have hsome : (lookup cm.cache k).isSome = true := by rw [hs]; rfl
      rw [SetWithTTL_present now cm k v tt hsome]
      refine ⟨?_, hpos, ?_, ?_⟩
      · show (keys (setKey cm.cache k ⟨v, tt, now⟩)).Nodup
        rw [keys_setKey_of_isSome _ _ _ hsome]
        exact hnd
      · show ((setKey cm.cache k ⟨v, tt, now⟩).length : Int) ≤ cm.capacity
        rw [length_setKey_of_isSome _ _ _ hsome]
        exact hlen
      · intro kv hkv
        exact mem_setKey_imp cm.cache k ⟨v, tt, now⟩ (fun cv => cv.lastAccess ≤ now) hP (le_refl now) kv hkv
  | none =>
      have hknot : k ∉ keys cm.cache := (lookup_eq_none_iff _ _).mp hs
      by_cases hfull : (cm.cache.length : Int) = cm.capacity
      · obtain ⟨kv, hmem, _, hcache, hkeys, hlen', _, _, _⟩ :=
          SetWithTTL_full_spec t now cm k v tt htle ht hs hfull hpos
        refine ⟨?_, ?_, ?_, ?_⟩
        · rw [hkeys]
          rw [List.nodup_append]
          refine ⟨hnd.erase kv.1, List.nodup_singleton k, ?_⟩
          intro a ha hb
          rw [List.mem_singleton] at hb
          rw [hb] at ha
          exact hknot (List.mem_of_mem_erase ha)
        · rw [SetWithTTL_capacity]
          exact hpos
        · rw [SetWithTTL_capacity, hlen']
          exact hlen
        · intro kv' hkv'
          rw [hcache] at hkv'
          refine mem_setKey_imp (eraseKey cm.cache kv.1) k ⟨v, tt, now⟩ (fun cv => cv.lastAccess ≤ now) ?_ (le_refl now) kv' hkv'
          intro kv'' hkv''
          exact hP kv'' (mem_of_mem_eraseKey _ _ kv'' hkv'')
      · rw [SetWithTTL_notfull now cm k v tt hfull]
        refine ⟨?_, hpos, ?_, ?_⟩
        · show (keys (setKey cm.cache k ⟨v, tt, now⟩)).Nodup
          rw [keys_setKey_of_none _ _ _ hs, List.nodup_append]
          refine ⟨hnd, List.nodup_singleton k, ?_⟩
          intro a ha hb
          rw [List.mem_singleton] at hb
          rw [hb] at ha
          exact hknot ha
        · show ((setKey cm.cache k ⟨v, tt, now⟩).length : Int) ≤ cm.capacity
          rw [length_setKey_of_none _ _ _ hs]
          push_cast
          omega
        · intro kv hkv
          exact mem_setKey_imp cm.cache k ⟨v, tt, now⟩ (fun cv => cv.lastAccess ≤ now) hP (le_refl now) kv hkv

lemma clearStep_capacity (now : Int) (acc : CacheManager) (kv : String × CacheValue) :
    (clearStep now acc kv).capacity = acc.capacity := by
  by_cases h : kv.2.ttl < now - kv.2.lastAccess
  · unfold clearStep
    rw [if_pos (by omega), Delete_capacity]
  · unfold clearStep
    rw [if_neg (by omega)]

lemma foldl_clearStep_capacity (now : Int) (l : List (String × CacheValue)) :
    ∀ acc : CacheManager, (l.foldl (clearStep now) acc).capacity = acc.capacity := by
  induction l with
  | nil => intro acc; rfl
  | cons kv tl ih =>
      intro acc
      rw [List.foldl_cons, ih, clearStep_capacity]

lemma capacity_applyOp (now : Int) (cm : CacheManager) (op : CacheOp) :
    (applyOp now cm op).capacity = cm.capacity := by
  cases op with
  | set k v =>
      show (Set now cm k v).capacity = cm.capacity
      rw [Set_eq_SetWithTTL, SetWithTTL_capacity]
  | setWithTTL k v tt => exact SetWithTTL_capacity now cm k v tt
  | get k => exact (Get_preserves now cm k).2.1
  | delete k => exact Delete_capacity cm k
  | clear => rfl
  | clearByTTL => exact foldl_clearStep_capacity now cm.cache cm
  | getStats => rfl

lemma Inv_applyOp (t now : Int) (cm : CacheManager) (op : CacheOp)
    (hinv : Inv t cm) (ht : t < now) : Inv now (applyOp now cm op) := by
  cases op with
  | set k v =>
      show Inv now (Set now cm k v)
      rw [Set_eq_SetWithTTL]
      exact Inv_SetWithTTL t now cm k v _ hinv ht
  | setWithTTL k v tt => exact Inv_SetWithTTL t now cm k v tt hinv ht
  | get k =>
      obtain ⟨hc, hcap, _, _⟩ := Get_preserves now cm k
      refine Inv_of_sublist ?_ hcap hinv (le_of_lt ht)
      show List.Sublist (Get now cm k).2.cache cm.cache
      rw [hc]
  | delete k =>
      exact Inv_of_sublist (Delete_cache_sublist cm k) (Delete_capacity cm k) hinv
        (le_of_lt ht)
  | clear =>
      obtain ⟨_, h2, _, _⟩ := hinv
      refine ⟨List.nodup_nil, h2, by simpa using le_of_lt h2, ?_⟩
      intro kv hkv
      exact absurd hkv (List.not_mem_nil kv)
  | clearByTTL =>
      obtain ⟨hc, _, _, _, hcap, _⟩ := ClearByTTL_spec_aux now cm hinv.1
      refine Inv_of_sublist ?_ hcap hinv (le_of_lt ht)
      show List.Sublist (ClearByTTL now cm).cache cm.cache
      rw [hc]
      exact List.filter_sublist _
  | getStats =>
      exact Inv_of_sublist (List.Sublist.refl _) rfl hinv (le_of_lt ht)

lemma run_cons (p : Int × CacheOp) (tl : List (Int × CacheOp)) (cm : CacheManager) :
    run (p :: tl) cm = run tl (applyOp p.1 cm p.2) := rfl

lemma run_append (a b : List (Int × CacheOp)) (cm : CacheManager) :
    run (a ++ b) cm = run b (run a cm) := by
  unfold run
  rw [List.foldl_append]

lemma run_capacity (ops : List (Int × CacheOp)) :
    ∀ cm : CacheManager, (run ops cm).capacity = cm.capacity := by
  induction ops with
  | nil => intro cm; rfl
  | cons p tl ih =>
      intro cm
      rw [run_cons, ih, capacity_applyOp]

lemma run_Inv (ops : List (Int × CacheOp)) :
    ∀ (t : Int) (cm : CacheManager), Inv t cm →
      List.Chain (· < ·) t (ops.map Prod.fst) →
      ∃ t', t ≤ t' ∧ Inv t' (run ops cm) := by
  induction ops with
  | nil =>
      intro t cm hinv _
      exact ⟨t, le_refl t, hinv⟩
  | cons p tl ih =>
      intro t cm hinv hch
      rw [List.map_cons] at hch
      rcases List.chain_cons.mp hch with ⟨h1, h2⟩
      rw [run_cons]
      obtain ⟨t', ht', hi⟩ := ih p.1 (applyOp p.1 cm p.2) (Inv_applyOp t p.1 cm p.2 hinv h1) h2
      exact ⟨t', le_trans (le_of_lt h1) ht', hi⟩

lemma chain_lt_take {t : Int} {l : List Int} (h : List.Chain (· < ·) t l) (n : Nat) :
    List.Chain (· < ·) t (l.take n) := by
  induction l generalizing t n with
  | nil =>
      rw [List.take_nil]
      exact List.Chain.nil
  | cons x tl ih =>
      cases n with
      | zero => exact List.Chain.nil
      | succ m =>
          rcases List.chain_cons.mp h with ⟨h1, h2⟩
          rw [List.take_succ_cons]
          exact List.chain_cons.mpr ⟨h1, ih h2 m⟩

/-! ### Statistics monotonicity -/

/-- Pointwise order on the three cumulative counters. -/
def statsLE (s1 s2 : CacheStats) : Prop :=
  s1.hits ≤ s2.hits ∧ s1.misses ≤ s2.misses ∧ s1.evictions ≤ s2.evictions

lemma statsLE_refl (s : CacheStats) : statsLE s s :=
  ⟨le_refl _, le_refl _, le_refl _⟩

lemma statsLE_trans {s1 s2 s3 : CacheStats} (h1 : statsLE s1 s2) (h2 : statsLE s2 s3) :
    statsLE s1 s3 :=
  ⟨le_trans h1.1 h2.1, le_trans h1.2.1 h2.2.1, le_trans h1.2.2 h2.2.2⟩

lemma statsLE_SetWithTTL (now : Int) (cm : CacheManager) (k : String) (v tt : Int) :
    statsLE cm.stats (SetWithTTL now cm k v tt).stats := by
  unfold SetWithTTL
  by_cases hc : ((lookup cm.cache k).isSome = false ∧ (cm.cache.length : Int) = cm.capacity)
  · rw [if_pos hc]
    exact ⟨le_refl _, le_refl _, Nat.le_succ _⟩
  · rw [if_neg hc]
    exact statsLE_refl _

lemma statsLE_Get (now : Int) (cm : CacheManager) (k : String) :
    statsLE cm.stats (Get now cm k).2.stats := by
  unfold Get
  split
  · exact ⟨le_refl _, Nat.le_succ _, le_refl _⟩
  · split
    · exact ⟨le_refl _, Nat.le_succ _, le_refl _⟩
    · exact ⟨Nat.le_succ _, le_refl _, le_refl _⟩

lemma clearStep_statsLE (now : Int) (acc : CacheManager) (kv : String × CacheValue) :
    statsLE acc.stats (clearStep now acc kv).stats := by
  by_cases h : kv.2.ttl < now - kv.2.lastAccess
  · unfold clearStep
    rw [if_pos (by omega), Delete_stats]
    exact ⟨le_refl _, le_refl _, Nat.le_succ _⟩
  · unfold clearStep
    rw [if_neg (by omega)]
    exact statsLE_refl _

lemma foldl_clearStep_statsLE (now : Int) (l : List (String × CacheValue)) :
    ∀ acc : CacheManager, statsLE acc.stats ((l.foldl (clearStep now) acc)).stats := by
  induction l with
  | nil => intro acc; exact statsLE_refl _
  | cons kv tl ih =>
      intro acc
      rw [List.foldl_cons]
      exact statsLE_trans (clearStep_statsLE now acc kv) (ih (clearStep now acc kv))

lemma statsLE_applyOp (now : Int) (cm : CacheManager) (op : CacheOp) :
    statsLE cm.stats (applyOp now cm op).stats := by
  cases op with
  | set k v =>
      show statsLE cm.stats (Set now cm k v).stats
      rw [Set_eq_SetWithTTL]
      exact statsLE_SetWithTTL now cm k v _
  | setWithTTL k v tt => exact statsLE_SetWithTTL now cm k v tt
  | get k => exact statsLE_Get now cm k
  | delete k =>
      rw [show (applyOp now cm (CacheOp.delete k)).stats = (Delete cm k).stats from rfl,
        Delete_stats]
      exact statsLE_refl _
  | clear => exact statsLE_refl _
  | clearByTTL => exact foldl_clearStep_statsLE now cm.cache cm
  | getStats => exact ⟨le_refl _, le_refl _, le_refl _⟩

lemma statsLE_run (ops : List (Int × CacheOp)) :
    ∀ cm : CacheManager, statsLE cm.stats (run ops cm).stats := by
  induction ops with
  | nil => intro cm; exact statsLE_refl _
  | cons p tl ih =>
      intro cm
      rw [run_cons]
      exact statsLE_trans (statsLE_applyOp p.1 cm p.2) (ih _)

/-! ### Counting distinct keys of a `Set`-only sequence -/

lemma keys_SetWithTTL_present (now : Int) (cm : CacheManager) (k : String) (v tt : Int)
    (h : (lookup cm.cache k).isSome = true) :
    keys (SetWithTTL now cm k v tt).cache = keys cm.cache := by
  rw [SetWithTTL_present now cm k v tt h]
  exact keys_setKey_of_isSome _ _ _ h

lemma length_SetWithTTL_present (now : Int) (cm : CacheManager) (k : String) (v tt : Int)
    (h : (lookup cm.cache k).isSome = true) :
    (SetWithTTL now cm k v tt).cache.length = cm.cache.length := by
  rw [SetWithTTL_present now cm k v tt h]
  exact length_setKey_of_isSome _ _ _ h

lemma keys_SetWithTTL_notfull (now : Int) (cm : CacheManager) (k : String) (v tt : Int)
    (h1 : lookup cm.cache k = none) (h2 : ¬((cm.cache.length : Int) = cm.capacity)) :
    keys (SetWithTTL now cm k v tt).cache = keys cm.cache ++ [k] := by
  rw [SetWithTTL_notfull now cm k v tt h2]
  exact keys_setKey_of_none _ _ _ h1

lemma length_SetWithTTL_notfull (now : Int) (cm : CacheManager) (k : String) (v tt : Int)
    (h1 : lookup cm.cache k = none) (h2 : ¬((cm.cache.length : Int) = cm.capacity)) :
    (SetWithTTL now cm k v tt).cache.length = cm.cache.length + 1 := by
  rw [SetWithTTL_notfull now cm k v tt h2]
  exact length_setKey_of_none _ _ _ h1

lemma nodup_append_singleton {seen : List String} {k : String}
    (hnd : seen.Nodup) (hk : k ∉ seen) : (seen ++ [k]).Nodup := by
  rw [List.nodup_append]
  refine ⟨hnd, List.nodup_singleton k, ?_⟩
  intro a ha hb
  rw [List.mem_singleton] at hb
  rw [hb] at ha
  exact hk ha

/-- Along a `Set`-only chronological run, the store size is always the minimum
of the number of distinct keys written so far (together with the keys already
tracked in `seen`) and the capacity. -/
lemma run_sets_min (ops : List (Int × CacheOp)) :
    ∀ (t : Int) (cm : CacheManager) (seen : List String),
      SetsOnly ops →
      List.Chain (· < ·) t (ops.map Prod.fst) →
      Inv t cm →
      seen.Nodup →
      (∀ k' ∈ keys cm.cache, k' ∈ seen) →
      ((cm.cache.length : Int) = min (seen.length : Int) cm.capacity) →
      (((seen.length : Int) ≤ cm.capacity) → ∀ k' ∈ seen, k' ∈ keys cm.cache) →
      ∃ seen' : List String, seen'.Nodup ∧
        seen'.toFinset = seen.toFinset ∪ (setKeysOf ops).toFinset ∧
        ((run ops cm).cache.length : Int) = min (seen'.length : Int) cm.capacity := by
  induction ops with
  | nil =>
      intro t cm seen _ _ _ hnd _ hlen _
      refine ⟨seen, hnd, ?_, hlen⟩
      simp [setKeysOf]
  | cons p tl ih =>
      intro t cm seen hso hch hinv hnd hsub hlen hrev
      obtain ⟨k, v, hp⟩ := hso p (List.mem_cons_self _ _)
      rw [List.map_cons] at hch
      rcases List.chain_cons.mp hch with ⟨ht1, hch'⟩
      have hso' : SetsOnly tl := fun q hq => hso q (List.mem_cons_of_mem _ hq)
      have hinv' : Inv p.1 (applyOp p.1 cm p.2) := Inv_applyOp t p.1 cm p.2 hinv ht1
      have hcap' : (applyOp p.1 cm p.2).capacity = cm.capacity := capacity_applyOp _ _ _
      have hstep : applyOp p.1 cm p.2 = SetWithTTL p.1 cm k v cm.defaultTTL := by
        rw [hp]
        exact Set_eq_SetWithTTL p.1 cm k v
      have hkeysOf : setKeysOf (p :: tl) = k :: setKeysOf tl := by
        simp only [setKeysOf, List.filterMap_cons, hp]
      rw [run_cons]
      obtain ⟨hndK, hpos, hlenK, htle⟩ := hinv
      cases hlk : lookup cm.cache k with
      | some v0 =>
          have hsome : (lookup cm.cache k).isSome = true := by rw [hlk]; rfl
          have hkmem : k ∈ keys cm.cache := (lookup_isSome_iff _ _).mp hsome
          have hkseen : k ∈ seen := hsub k hkmem
          have hkeys' : keys (applyOp p.1 cm p.2).cache = keys cm.cache := by
            rw [hstep]
            exact keys_SetWithTTL_present p.1 cm k v _ hsome
          have hlen' : (applyOp p.1 cm p.2).cache.length = cm.cache.length := by
            rw [hstep]
            exact length_SetWithTTL_present p.1 cm k v _ hsome
          obtain ⟨seen', hnd', hfin', hlenf⟩ :=
            ih p.1 (applyOp p.1 cm p.2) seen hso' hch' hinv' hnd
              (by rw [hkeys']; exact hsub)
              (by rw [hlen', hcap']; exact hlen)
              (by rw [hcap', hkeys']; exact hrev)
          rw [hcap'] at hlenf
          refine ⟨seen', hnd', ?_, hlenf⟩
          rw [hkeysOf]
          ext a
          rw [hfin']
          simp only [List.toFinset_cons, Finset.mem_union, Finset.mem_insert,
            List.mem_toFinset]
          constructor
          · rintro (h | h)
            · exact Or.inl h
            · exact Or.inr (Or.inr h)
          · rintro (h | h | h)
            · exact Or.inl h
            · rw [h]
              exact Or.inl hkseen
            · exact Or.inr h
      | none =>
          have hknotin : k ∉ keys cm.cache := (lookup_eq_none_iff _ _).mp hlk
          by_cases hfull : (cm.cache.length : Int) = cm.capacity
          · -- full store: one entry is evicted, the new key is appended
            obtain ⟨kv, hkvmem, _, _, hkeysS, hlenS, _, _, _⟩ :=
              SetWithTTL_full_spec t p.1 cm k v cm.defaultTTL htle ht1 hlk hfull hpos
            have hkeys' : keys (applyOp p.1 cm p.2).cache
                = ((keys cm.cache).erase kv.1) ++ [k] := by
              rw [hstep]
              exact hkeysS
            have hlen' : (applyOp p.1 cm p.2).cache.length = cm.cache.length := by
              rw [hstep]
              exact hlenS
            have hseenge : cm.capacity ≤ (seen.length : Int) := by omega
            by_cases hkseen : k ∈ seen
            · -- the key was written before (and evicted since)
              have hgt : ¬((seen.length : Int) ≤ cm.capacity) :=
                fun hle => hknotin (hrev hle k hkseen)
              obtain ⟨seen', hnd', hfin', hlenf⟩ :=
                ih p.1 (applyOp p.1 cm p.2) seen hso' hch' hinv' hnd
                  (by
                    intro k' hk'
                    rw [hkeys'] at hk'
                    rcases List.mem_append.mp hk' with h | h
                    · exact hsub k' (List.mem_of_mem_erase h)
                    · rw [List.mem_singleton] at h
                      rw [h]
                      exact hkseen)
                  (by rw [hlen', hcap']; omega)
                  (by
                    rw [hcap']
                    intro hle
                    exact absurd hle hgt)
              rw [hcap'] at hlenf
              refine ⟨seen', hnd', ?_, hlenf⟩
              rw [hkeysOf]
              ext a
              rw [hfin']
              simp only [List.toFinset_cons, Finset.mem_union, Finset.mem_insert,
                List.mem_toFinset]
              constructor
              · rintro (h | h)
                · exact Or.inl h
                · exact Or.inr (Or.inr h)
              · rintro (h | h | h)
                · exact Or.inl h
                · rw [h]
                  exact Or.inl hkseen
                · exact Or.inr h
            · -- a fresh key: it joins `seen`
              have hnd1 : (seen ++ [k]).Nodup := nodup_append_singleton hnd hkseen
              have hlen1 : (seen ++ [k]).length = seen.length + 1 := by simp
              obtain ⟨seen', hnd', hfin', hlenf⟩ :=
                ih p.1 (applyOp p.1 cm p.2) (seen ++ [k]) hso' hch' hinv' hnd1
                  (by
                    intro k' hk'
                    rw [hkeys'] at hk'
                    rcases List.mem_append.mp hk' with h | h
                    · exact List.mem_append_left _ (hsub k' (List.mem_of_mem_erase h))
                    · exact List.mem_append_right _ h)
                  (by rw [hlen', hcap', hlen1]; push_cast; omega)
                  (by
                    rw [hcap', hlen1]
                    intro hle
                    push_cast at hle
                    omega)
              rw [hcap'] at hlenf
              refine ⟨seen', hnd', ?_, hlenf⟩
              rw [hkeysOf]
              ext a
              rw [hfin']
              simp [List.toFinset_append]
              tauto
          · -- store not yet full: the new key joins both the store and `seen`
            have hseeneq : (seen.length : Int) = (cm.cache.length : Int) := by omega
            have hkseen : k ∉ seen := by
              intro hks
              exact hknotin (hrev (by omega) k hks)
            have hkeys' : keys (applyOp p.1 cm p.2).cache = keys cm.cache ++ [k] := by
              rw [hstep]
              exact keys_SetWithTTL_notfull p.1 cm k v _ hlk hfull
            have hlen' : (applyOp p.1 cm p.2).cache.length = cm.cache.length + 1 := by
              rw [hstep]
              exact length_SetWithTTL_notfull p.1 cm k v _ hlk hfull
            have hnd1 : (seen ++ [k]).Nodup := nodup_append_singleton hnd hkseen
            have hlen1 : (seen ++ [k]).length = seen.length + 1 := by simp
            obtain ⟨seen', hnd', hfin', hlenf⟩ :=
              ih p.1 (applyOp p.1 cm p.2) (seen ++ [k]) hso' hch' hinv' hnd1
                (by
                  intro k' hk'
                  rw [hkeys'] at hk'
                  rcases List.mem_append.mp hk' with h | h
                  · exact List.mem_append_left _ (hsub k' h)
                  · exact List.mem_append_right _ h)
                (by rw [hlen', hcap', hlen1]; push_cast; omega)
                (by
                  rw [hcap', hlen1]
                  intro hle k' hk'
                  rw [hkeys']
                  rcases List.mem_append.mp hk' with h | h
                  · exact List.mem_append_left _ (hrev (by omega) k' h)
                  · exact List.mem_append_right _ h)
            rw [hcap'] at hlenf
            refine ⟨seen', hnd', ?_, hlenf⟩
            rw [hkeysOf]
            ext a
            rw [hfin']
            simp [List.toFinset_append]
            tauto

/-! ### The claims -/

/-- C1 (code_bug evidence): the spec — like the source's own doc comment on
`Get` — says a successful read refreshes `lastAccess` to now. The code does
not: on a present, unexpired key `Get` returns `(value, true)` and increments
`hits`, but leaves the entry map, and hence the entry's `lastAccess`,
unchanged. Here the entry written at time 0 still carries `lastAccess = 0`
after a successful read at time 5, so the read did not extend the deadline. -/
theorem get_hit_leaves_lastAccess_unchanged :
    (Get 5 c1Store "k").1 = (some 7, true) ∧
    (Get 5 c1Store "k").2.stats.hits = c1Store.stats.hits + 1 ∧
    (Get 5 c1Store "k").2.cache = c1Store.cache ∧
    lookup (Get 5 c1Store "k").2.cache "k" = some ⟨7, 100, 0⟩ := by
  decide

/-- C2: starting from an empty store of capacity `c > 0`, along any
chronological sequence of operations the entry count never exceeds `c`
(checked after every prefix), and for a `Set`-only sequence writing more than
`c` distinct keys the final entry count is exactly `c`. -/
theorem capacity_invariant (c ttl0 tick t0 : Int) (hc : 0 < c)
    (ops : List (Int × CacheOp))
    (hch : List.Chain (· < ·) t0 (ops.map Prod.fst)) :
    (∀ n : Nat,
      ((run (ops.take n) (NewCacheManager c ttl0 tick)).cache.length : Int) ≤ c) ∧
    (SetsOnly ops → c < ((setKeysOf ops).toFinset.card : Int) →
      ((run ops (NewCacheManager c ttl0 tick)).cache.length : Int) = c) := by
  have hcap0 : (NewCacheManager c ttl0 tick).capacity = c := rfl
  have hcache0 : (NewCacheManager c ttl0 tick).cache = [] := rfl
  have hinv0 : Inv t0 (NewCacheManager c ttl0 tick) :=
    ⟨List.nodup_nil, hc, by simpa using le_of_lt hc,
      fun kv hkv => absurd hkv (List.not_mem_nil kv)⟩
  constructor
  · intro n
    have hch' : List.Chain (· < ·) t0 ((ops.take n).map Prod.fst) := by
      rw [List.map_take]
      exact chain_lt_take hch n
    obtain ⟨t', _, hinvr⟩ := run_Inv (ops.take n) t0 _ hinv0 hch'
    have h1 := hinvr.2.2.1
    rw [run_capacity, hcap0] at h1
    exact h1
  · intro hSO hcard
    obtain ⟨seen', hnd', hfin, hlen⟩ :=
      run_sets_min ops t0 (NewCacheManager c ttl0 tick) [] hSO hch hinv0 List.nodup_nil
        (fun k' hk' => by rw [hcache0] at hk'; exact absurd hk' (List.not_mem_nil k'))
        (by rw [hcache0, hcap0]; simp only [List.length_nil]; push_cast; omega)
        (fun _ k' hk' => absurd hk' (List.not_mem_nil k'))
    rw [hcap0] at hlen
    have hcard' : seen'.length = (setKeysOf ops).toFinset.card := by
      rw [← List.toFinset_card_of_nodup hnd', hfin]
      simp
    rw [hlen, hcard']
    omega

/-- C2 witness: capacity 1, two `Set` calls with distinct keys at times 1, 2. -/
theorem capacity_invariant_witness :
    (∀ n : Nat,
      ((run (([((1 : Int), CacheOp.set "a" 0), ((2 : Int), CacheOp.set "b" 0)]).take n)
          (NewCacheManager 1 5 1)).cache.length : Int) ≤ 1) ∧
    (SetsOnly [((1 : Int), CacheOp.set "a" 0), ((2 : Int), CacheOp.set "b" 0)] →
      1 < ((setKeysOf
          [((1 : Int), CacheOp.set "a" 0), ((2 : Int), CacheOp.set "b" 0)]).toFinset.card
            : Int) →
      ((run [((1 : Int), CacheOp.set "a" 0), ((2 : Int), CacheOp.set "b" 0)]
          (NewCacheManager 1 5 1)).cache.length : Int) = 1) :=
  capacity_invariant 1 5 1 0 (by decide) _
    (by simp only [List.map_cons, List.map_nil]
        exact List.Chain.cons (by decide) (List.Chain.cons (by decide) List.Chain.nil))

/-- C3: on a store satisfying the invariant, `Set`/`SetWithTTL` never evict
when the key is already present (an overwrite), never evict when the store is
below capacity, and when inserting an absent key into a full store evict
exactly one entry — one of minimal `lastAccess` — incrementing `evictions` by
one and leaving the entry count unchanged. -/
theorem lru_eviction_policy (t now : Int) (cm : CacheManager) (k : String) (v tt : Int)
    (hinv : Inv t cm) (ht : t < now) :
    ((lookup cm.cache k).isSome = true →
      (Set now cm k v).stats.evictions = cm.stats.evictions ∧
      keys (Set now cm k v).cache = keys cm.cache ∧
      (SetWithTTL now cm k v tt).stats.evictions = cm.stats.evictions ∧
      keys (SetWithTTL now cm k v tt).cache = keys cm.cache) ∧
    (lookup cm.cache k = none → (cm.cache.length : Int) < cm.capacity →
      (Set now cm k v).stats.evictions = cm.stats.evictions ∧
      keys (Set now cm k v).cache = keys cm.cache ++ [k] ∧
      (SetWithTTL now cm k v tt).stats.evictions = cm.stats.evictions ∧
      keys (SetWithTTL now cm k v tt).cache = keys cm.cache ++ [k]) ∧
    (lookup cm.cache k = none → (cm.cache.length : Int) = cm.capacity →
      (∃ kv ∈ cm.cache,
        (∀ kv' ∈ cm.cache, kv.2.lastAccess ≤ kv'.2.lastAccess) ∧
        (Set now cm k v).stats.evictions = cm.stats.evictions + 1 ∧
        keys (Set now cm k v).cache = ((keys cm.cache).erase kv.1) ++ [k] ∧
        (Set now cm k v).cache.length = cm.cache.length) ∧
      (∃ kv ∈ cm.cache,
        (∀ kv' ∈ cm.cache, kv.2.lastAccess ≤ kv'.2.lastAccess) ∧
        (SetWithTTL now cm k v tt).stats.evictions = cm.stats.evictions + 1 ∧
        keys (SetWithTTL now cm k v tt).cache = ((keys cm.cache).erase kv.1) ++ [k] ∧
        (SetWithTTL now cm k v tt).cache.length = cm.cache.length)) := by
  obtain ⟨hnd, hpos, hlen, htle⟩ := hinv
  refine ⟨?_, ?_, ?_⟩
  · intro hsome
    rw [Set_eq_SetWithTTL, SetWithTTL_present now cm k v _ hsome,
      SetWithTTL_present now cm k v tt hsome]
    exact ⟨rfl, keys_setKey_of_isSome _ _ _ hsome, rfl, keys_setKey_of_isSome _ _ _ hsome⟩
  · intro hnone hlt
    have hne : ¬((cm.cache.length : Int) = cm.capacity) := by omega
    rw [Set_eq_SetWithTTL, SetWithTTL_notfull now cm k v _ hne,
      SetWithTTL_notfull now cm k v tt hne]
    exact ⟨rfl, keys_setKey_of_none _ _ _ hnone, rfl, keys_setKey_of_none _ _ _ hnone⟩
  · intro hnone hfull
    constructor
    · obtain ⟨kv, hmem, hmin, _, hkeys, hlen', hev, _, _⟩ :=
        SetWithTTL_full_spec t now cm k v cm.defaultTTL htle ht hnone hfull hpos
      refine ⟨kv, hmem, hmin, ?_, ?_, ?_⟩
      · rw [Set_eq_SetWithTTL]
        exact hev
      · rw [Set_eq_SetWithTTL]
        exact hkeys
      · rw [Set_eq_SetWithTTL]
        exact hlen'
    · obtain ⟨kv, hmem, hmin, _, hkeys, hlen', hev, _, _⟩ :=
        SetWithTTL_full_spec t now cm k v tt htle ht hnone hfull hpos
      exact ⟨kv, hmem, hmin, hev, hkeys, hlen'⟩

/-- C3 witness: a full store of capacity 2 with entries from times 1 and 2,
probed with the absent key `"c"` at time 3. -/
theorem lru_eviction_policy_witness :
    ((lookup c3Store.cache "c").isSome = true →
      (Set 3 c3Store "c" 0).stats.evictions = c3Store.stats.evictions ∧
      keys (Set 3 c3Store "c" 0).cache = keys c3Store.cache ∧
      (SetWithTTL 3 c3Store "c" 0 7).stats.evictions = c3Store.stats.evictions ∧
      keys (SetWithTTL 3 c3Store "c" 0 7).cache = keys c3Store.cache) ∧
    (lookup c3Store.cache "c" = none → (c3Store.cache.length : Int) < c3Store.capacity →
      (Set 3 c3Store "c" 0).stats.evictions = c3Store.stats.evictions ∧
      keys (Set 3 c3Store "c" 0).cache = keys c3Store.cache ++ ["c"] ∧
      (SetWithTTL 3 c3Store "c" 0 7).stats.evictions = c3Store.stats.evictions ∧
      keys (SetWithTTL 3 c3Store "c" 0 7).cache = keys c3Store.cache ++ ["c"]) ∧
    (lookup c3Store.cache "c" = none → (c3Store.cache.length : Int) = c3Store.capacity →
      (∃ kv ∈ c3Store.cache,
        (∀ kv' ∈ c3Store.cache, kv.2.lastAccess ≤ kv'.2.lastAccess) ∧
        (Set 3 c3Store "c" 0).stats.evictions = c3Store.stats.evictions + 1 ∧
        keys (Set 3 c3Store "c" 0).cache = ((keys c3Store.cache).erase kv.1) ++ ["c"] ∧
        (Set 3 c3Store "c" 0).cache.length = c3Store.cache.length) ∧
      (∃ kv ∈ c3Store.cache,
        (∀ kv' ∈ c3Store.cache, kv.2.lastAccess ≤ kv'.2.lastAccess) ∧
        (SetWithTTL 3 c3Store "c" 0 7).stats.evictions = c3Store.stats.evictions + 1 ∧
        keys (SetWithTTL 3 c3Store "c" 0 7).cache
            = ((keys c3Store.cache).erase kv.1) ++ ["c"] ∧
        (SetWithTTL 3 c3Store "c" 0 7).cache.length = c3Store.cache.length)) :=
  lru_eviction_policy 2 3 c3Store "c" 0 7
    ⟨by decide, by decide, by decide, by decide⟩ (by decide)

/-- C4 (code_bug evidence): the spec (and the source's doc comment on `Get`)
promise that reading key₀ refreshes it, so a subsequent insert into the full
store never evicts key₀. Because the code's `Get` does not refresh
`lastAccess`, the oldest entry `"a"` is evicted even though it was read
successfully just before the insert. -/
theorem lru_evicts_key_read_most_recently :
    (Get 3 c4Store "a").1.2 = true ∧
    (Get 3 c4Store "a").2.cache = c4Store.cache ∧
    lookup (Set 4 (Get 3 c4Store "a").2 "c" 3).cache "a" = none ∧
    lookup (Set 4 (Get 3 c4Store "a").2 "c" 3).cache "b" = some ⟨2, 100, 2⟩ ∧
    lookup (Set 4 (Get 3 c4Store "a").2 "c" 3).cache "c" = some ⟨3, 100, 4⟩ := by
  decide

/-- C5: when the key is absent, or its entry is expired
(`now - lastAccess > ttl`), `Get` returns the boolean miss `(none, false)`,
increments `misses` by one, leaves `hits` and `evictions` alone, and does not
touch the entry map (the expired entry is not removed). -/
theorem get_miss_spec (now : Int) (cm : CacheManager) (k : String)
    (h : lookup cm.cache k = none ∨
      ∃ v, lookup cm.cache k = some v ∧ v.ttl < now - v.lastAccess) :
    (Get now cm k).1 = (none, false) ∧
    (Get now cm k).2.stats.misses = cm.stats.misses + 1 ∧
    (Get now cm k).2.stats.hits = cm.stats.hits ∧
    (Get now cm k).2.stats.evictions = cm.stats.evictions ∧
    (Get now cm k).2.cache = cm.cache := by
  rcases h with h | ⟨v, hv, hexp⟩
  · unfold Get
    split
    · exact ⟨rfl, rfl, rfl, rfl, rfl⟩
    · rename_i v0 heq
      rw [h] at heq
      simp at heq
  · unfold Get
    split
    · rename_i heq
      rw [hv] at heq
      simp at heq
    · rename_i v0 heq
      rw [hv] at heq
      injection heq with hv0
      subst hv0
      rw [if_pos (show now - v.lastAccess > v.ttl by omega)]
      exact ⟨rfl, rfl, rfl, rfl, rfl⟩

/-- C5 witness: the entry `"k"` was written at time 0 with TTL 3 and is
queried at time 5, so it is expired. -/
theorem get_miss_spec_witness :
    (Get 5 c5Store "k").1 = (none, false) ∧
    (Get 5 c5Store "k").2.stats.misses = c5Store.stats.misses + 1 ∧
    (Get 5 c5Store "k").2.stats.hits = c5Store.stats.hits ∧
    (Get 5 c5Store "k").2.stats.evictions = c5Store.stats.evictions ∧
    (Get 5 c5Store "k").2.cache = c5Store.cache :=
  get_miss_spec 5 c5Store "k" (Or.inr ⟨⟨7, 3, 0⟩, by decide, by decide⟩)

/-- C6 (code_bug evidence): the spec says the statistics read reports
`size` equal to the entry count observed at read time; `GetStats` instead
stores the constant 1 into `Size` (`atomic.StoreInt64(&cm.Stats.Size, 1)`).
On a store with two entries the returned `size` is 1, not 2, while the three
counters are reported correctly. -/
theorem getStats_size_is_constant_one :
    c6Store.cache.length = 2 ∧
    (GetStats c6Store).1.hits = c6Store.stats.hits ∧
    (GetStats c6Store).1.misses = c6Store.stats.misses ∧
    (GetStats c6Store).1.evictions = c6Store.stats.evictions ∧
    (GetStats c6Store).1.size = 1 := by
  decide

/-- C7: `ClearByTTL` keeps exactly the entries with `now - lastAccess ≤ ttl`,
removes exactly those with `now - lastAccess > ttl`, increments `evictions`
once per removed entry, and leaves `hits` and `misses` unchanged. -/
theorem clearByTTL_spec (now : Int) (cm : CacheManager)
    (hnd : (keys cm.cache).Nodup) :
    (ClearByTTL now cm).cache
        = cm.cache.filter (fun kv => decide (now - kv.2.lastAccess ≤ kv.2.ttl)) ∧
    (ClearByTTL now cm).stats.evictions
        = cm.stats.evictions
            + cm.cache.countP (fun kv => decide (kv.2.ttl < now - kv.2.lastAccess)) ∧
    (ClearByTTL now cm).stats.hits = cm.stats.hits ∧
    (ClearByTTL now cm).stats.misses = cm.stats.misses := by
  obtain ⟨h1, h2, h3, h4, _, _⟩ := ClearByTTL_spec_aux now cm hnd
  refine ⟨?_, ?_, h3, h4⟩
  · rw [h1]
    congr 1
    funext kv
    by_cases hp : kv.2.ttl < now - kv.2.lastAccess
    · simp [isExpired, hp]
      omega
    · simp [isExpired, hp]
      omega
  · exact h2

/-- C7 witness: at time 10, `"a"` (written at 1, TTL 2) is expired and `"b"`
(written at 9, TTL 50) is alive. -/
theorem clearByTTL_spec_witness :
    (ClearByTTL 10 c7Store).cache
        = c7Store.cache.filter (fun kv => decide ((10 : Int) - kv.2.lastAccess ≤ kv.2.ttl)) ∧
    (ClearByTTL 10 c7Store).stats.evictions
        = c7Store.stats.evictions
            + c7Store.cache.countP (fun kv => decide (kv.2.ttl < (10 : Int) - kv.2.lastAccess)) ∧
    (ClearByTTL 10 c7Store).stats.hits = c7Store.stats.hits ∧
    (ClearByTTL 10 c7Store).stats.misses = c7Store.stats.misses :=
  clearByTTL_spec 10 c7Store (by decide)

/-- C8: `Clear` replaces the entry map with the empty one and does not touch
the cumulative statistics. -/
theorem clear_spec (cm : CacheManager) :
    (Clear cm).cache = [] ∧ (Clear cm).stats = cm.stats :=
  ⟨rfl, rfl⟩

/-- C9: the counters `hits`, `misses`, `evictions` (which are `Nat`-valued in
the model, hence non-negative) never decrease along any sequence of store
operations: the counters after a prefix of the run are bounded by the
counters after any longer prefix. -/
theorem stats_monotone (ops : List (Int × CacheOp)) (cm : CacheManager) (m n : Nat)
    (hmn : m ≤ n) :
    statsLE (run (ops.take m) cm).stats (run (ops.take n) cm).stats := by
  have h : ops.take n = ops.take m ++ (ops.drop m).take (n - m) := by
    rw [← List.take_add]
    congr 1
    omega
  rw [h, run_append]
  exact statsLE_run _ _

/-- C9 witness: one missing `Get` at time 1, prefixes of length 0 and 1. -/
theorem stats_monotone_witness :
    statsLE (run ([((1 : Int), CacheOp.get "a")].take 0) (NewCacheManager 1 5 1)).stats
      (run ([((1 : Int), CacheOp.get "a")].take 1) (NewCacheManager 1 5 1)).stats :=
  stats_monotone [((1 : Int), CacheOp.get "a")] (NewCacheManager 1 5 1) 0 1 (by decide)

/-- C10: `Delete` — whether or not the key is present — leaves all the
statistics counters unchanged; in particular no eviction is counted. -/
theorem delete_preserves_stats (cm : CacheManager) (k : String) :
    (Delete cm k).stats = cm.stats := by
  unfold Delete
  split <;> rfl

end LMSCache
